import Mathlib

/-!
Verification development for the brain-coder program-synthesis kernel.

The definitions below are shallow embeddings of the Python source
(bf.py, utils.py, code_tasks.py, results_lib.py, ga_lib.py collected in
src/all.py).  Machine floats are modelled as rationals, Python lists as
Lean lists, Python dicts as association lists, and Python sets as
finsets.  The wall clock (time.time) is non-deterministic and is not
modelled; every statement proved here is about executions with the
timeout disabled, which is the deterministic fragment of the code.
-/

namespace BrainCoder

/-- Embeds the Status class of bf.py: the four result status strings. -/
inductive Status where
  | success
  | timeout
  | stepLimit
  | syntaxError
deriving DecidableEq

/-- Embeds the EvalResult namedtuple of bf.py (the wall-clock time field
is dropped; the trace field is not needed by any claim). -/
structure EvalResult where
  output : List Int
  success : Bool
  failureReason : Status
  steps : Nat
  memory : Option (List Int)
deriving DecidableEq

instance : Inhabited EvalResult := ⟨⟨[], false, Status.success, 0, none⟩⟩

/-- Embeds CHARS of bf.py: the 8 recognized tokens, in source order. -/
def CHARS : List Char := ['>', '<', '+', '-', '[', ']', '.', ',']

/-- Worker for buildbracemap of bf.py: left-to-right scan with a stack of
open-brace positions; unmatched braces map to themselves and clear the
flag (source name of the flag: correct_syntax, here syntaxOk). -/
def buildbracemapGo : List Char → Nat → List Nat → List (Nat × Nat) → Bool →
    List (Nat × Nat) × Bool
  | [], _, stack, m, ok => (m ++ stack.map (fun p => (p, p)), ok && stack.isEmpty)
  | c :: rest, pos, stack, m, ok =>
    if c = '[' then
      buildbracemapGo rest (pos + 1) (pos :: stack) m ok
    else if c = ']' then
      match stack with
      | [] => buildbracemapGo rest (pos + 1) [] (m ++ [(pos, pos)]) false
      | start :: stack2 =>
          buildbracemapGo rest (pos + 1) stack2 (m ++ [(start, pos), (pos, start)]) ok
    else
      buildbracemapGo rest (pos + 1) stack m ok

/-- Embeds buildbracemap of bf.py. -/
def buildbracemap (code : List Char) : List (Nat × Nat) × Bool :=
  buildbracemapGo code 0 [] [] true

/-- Dict access bracemap[codeptr] of bf.py.  The source dict holds every
brace position (unmatched braces self-map), so the default is never used
on brace positions; it makes the Lean function total. -/
def bmLookup (m : List (Nat × Nat)) (p : Nat) : Nat :=
  ((m.find? (fun q => q.1 = p)).map (fun q => q.2)).getD p

/-- The mutable locals of the interpreter loop of bf.py. -/
structure BFState where
  codeptr : Nat
  cellptr : Nat
  cells : List Int
  inputLeft : List Int
  output : List Int
  steps : Nat
deriving DecidableEq

/-- The command dispatch of the while loop of evaluate in bf.py (lines
328-345): the eight mutually exclusive if statements on the current
command.  Unrecognized commands fall through every branch. -/
def execCmd (bm : List (Nat × Nat)) (base : Int) (command : Char)
    (s : BFState) : BFState :=
  if command = '>' then
    let cellptr := s.cellptr + 1
    let cells := if cellptr = s.cells.length then s.cells ++ [0] else s.cells
    { s with cellptr := cellptr, cells := cells }
  else if command = '<' then
    -- cellptr = 0 if cellptr <= 0 else cellptr - 1 : Nat subtraction clamps at 0
    { s with cellptr := s.cellptr - 1 }
  else if command = '+' then
    let v := s.cells.getD s.cellptr 0
    { s with cells := s.cells.set s.cellptr (if v < base - 1 then v + 1 else 0) }
  else if command = '-' then
    let v := s.cells.getD s.cellptr 0
    { s with cells := s.cells.set s.cellptr (if v > 0 then v - 1 else base - 1) }
  else if command = '[' then
    if s.cells.getD s.cellptr 0 = 0 then { s with codeptr := bmLookup bm s.codeptr }
    else s
  else if command = ']' then
    if s.cells.getD s.cellptr 0 ≠ 0 then { s with codeptr := bmLookup bm s.codeptr }
    else s
  else if command = '.' then
    { s with output := s.output ++ [s.cells.getD s.cellptr 0] }
  else if command = ',' then
    -- read next input, 0 once the buffer is exhausted
    match s.inputLeft with
    | [] => { s with cells := s.cells.set s.cellptr 0 }
    | x :: rest => { s with cells := s.cells.set s.cellptr x, inputLeft := rest }
  else s

/-- One iteration of the while loop of evaluate in bf.py (lines 317-348):
dispatch on the current command, then advance the code pointer and the
step counter.  States whose code pointer is past the end are fixed
points (the source loop does not execute there). -/
def execStep (code : List Char) (bm : List (Nat × Nat)) (base : Int)
    (s : BFState) : BFState :=
  if s.codeptr < code.length then
    let t := execCmd bm base (code.getD s.codeptr ' ') s
    { t with codeptr := t.codeptr + 1, steps := t.steps + 1 }
  else s

/-- The while loop of evaluate in bf.py, with the stop conditions in
source order (the wall-clock check is not modelled; the step-limit check
follows every executed step, and the loop guard gives SUCCESS).  The
fuel argument makes the function total: none means the fuel ran out
before the loop stopped, and is never returned when enough fuel is
supplied (for a step limit n, fuel n + 1 suffices). -/
def bfLoop (code : List Char) (bm : List (Nat × Nat)) (base : Int)
    (maxSteps : Option Nat) : Nat → BFState → Option (BFState × Bool × Status)
  | 0, _ => none
  | fuel + 1, s =>
    if s.codeptr < code.length then
      let s2 := execStep code bm base s
      match maxSteps with
      | some n =>
          if n ≤ s2.steps then some (s2, false, Status.stepLimit)
          else bfLoop code bm base maxSteps fuel s2
      | none => bfLoop code bm base maxSteps fuel s2
    else some (s, true, Status.success)

/-- Embeds evaluate of bf.py (timeout not modelled, trace not recorded).
Returns none exactly when the fuel is insufficient. -/
def bfEvaluateFuel (fuel : Nat) (code : List Char) (inputBuffer : List Int)
    (initMemory : List Int) (base : Int) (maxSteps : Option Nat)
    (requireCorrectStx : Bool) (outputMemory : Bool) : Option EvalResult :=
  let bmOk := buildbracemap code
  if requireCorrectStx && !bmOk.2 then
    some ⟨[], false, Status.syntaxError, 0, if outputMemory then some [] else none⟩
  else
    let init : BFState :=
      ⟨0, 0, if initMemory.isEmpty then [0] else initMemory, inputBuffer, [], 0⟩
    match bfLoop code bmOk.1 base maxSteps fuel init with
    | none => none
    | some (s, ok, reason) =>
        some ⟨s.output, ok, reason, s.steps, if outputMemory then some s.cells else none⟩

/-- Embeds evaluate of bf.py with a step limit set (max_steps = n); fuel
n + 1 always suffices, as proved in bfEvaluateFuel_eq below. -/
def bfEvaluate (code : List Char) (inputBuffer : List Int) (initMemory : List Int)
    (base : Int) (maxSteps : Nat) (requireCorrectStx : Bool)
    (outputMemory : Bool) : EvalResult :=
  (bfEvaluateFuel (maxSteps + 1) code inputBuffer initMemory base (some maxSteps)
    requireCorrectStx outputMemory).getD default

example :
    bfEvaluate ['+', '+', '+', '.', '-', '-', '.', '+', '.'] [] [] 256 100 true false
      = ⟨[3, 1, 2], true, Status.success, 9, none⟩ := by decide

example :
    bfEvaluate [',', '.', ',', '.'] [7, 9] [] 256 100 true false
      = ⟨[7, 9], true, Status.success, 4, none⟩ := by decide

example :
    bfEvaluate ['+', '[', '-', ']', '.'] [] [] 256 100 true false
      = ⟨[0], true, Status.success, 5, none⟩ := by decide

theorem execCmd_steps (bm : List (Nat × Nat)) (base : Int) (c : Char) (s : BFState) :
    (execCmd bm base c s).steps = s.steps := by
  unfold execCmd
  split_ifs <;> try rfl
  split <;> rfl

theorem execCmd_output_grows (bm : List (Nat × Nat)) (base : Int) (c : Char)
    (s : BFState) : s.output <+: (execCmd bm base c s).output := by
  unfold execCmd
  split_ifs <;> try exact List.prefix_rfl
  · exact List.prefix_append _ _
  · split <;> exact List.prefix_rfl

theorem execStep_steps (code : List Char) (bm : List (Nat × Nat)) (base : Int)
    (s : BFState) (h : s.codeptr < code.length) :
    (execStep code bm base s).steps = s.steps + 1 := by
  unfold execStep
  rw [if_pos h]
  simp [execCmd_steps]

theorem execStep_output_grows (code : List Char) (bm : List (Nat × Nat)) (base : Int)
    (s : BFState) : s.output <+: (execStep code bm base s).output := by
  unfold execStep
  split
  · exact execCmd_output_grows bm base _ s
  · exact List.prefix_rfl

theorem bfLoop_output_mono (code : List Char) (bm : List (Nat × Nat)) (base : Int)
    (ms : Option Nat) :
    ∀ (fuel : Nat) (s : BFState) (r : BFState × Bool × Status),
      bfLoop code bm base ms fuel s = some r → s.output <+: r.1.output := by
  intro fuel
  induction fuel with
  | zero => intro s r h; simp [bfLoop] at h
  | succ fuel ih =>
    intro s r h
    unfold bfLoop at h
    split at h
    · cases ms with
      | some n =>
        simp only at h
        split at h
        · cases h
          exact execStep_output_grows code bm base s
        · exact (execStep_output_grows code bm base s).trans (ih _ _ h)
      | none =>
        simp only at h
        exact (execStep_output_grows code bm base s).trans (ih _ _ h)
    · cases h
      exact List.prefix_rfl

theorem bfLoop_isSome (code : List Char) (bm : List (Nat × Nat)) (base : Int)
    (n : Nat) :
    ∀ (fuel : Nat) (s : BFState), n - s.steps + 1 ≤ fuel →
      (bfLoop code bm base (some n) fuel s).isSome := by
  intro fuel
  induction fuel with
  | zero => intro s h; omega
  | succ fuel ih =>
    intro s _
    unfold bfLoop
    split
    · rename_i hc
      simp only
      split
      · simp
      · rename_i hn
        apply ih
        rw [execStep_steps code bm base s hc] at hn ⊢
        omega
    · simp

theorem bfEvaluateFuel_isSome (code : List Char) (inputBuffer initMemory : List Int)
    (base : Int) (n : Nat) (rc om : Bool) :
    (bfEvaluateFuel (n + 1) code inputBuffer initMemory base (some n) rc om).isSome := by
  simp only [bfEvaluateFuel]
  by_cases hs : (rc && !(buildbracemap code).2) = true
  · rw [if_pos hs]; simp
  · rw [if_neg hs]
    have h := bfLoop_isSome code (buildbracemap code).1 base n (n + 1)
      ⟨0, 0, if initMemory.isEmpty then [0] else initMemory, inputBuffer, [], 0⟩
      (by omega)
    rcases hr : bfLoop code (buildbracemap code).1 base (some n) (n + 1)
        ⟨0, 0, if initMemory.isEmpty then [0] else initMemory, inputBuffer, [], 0⟩ with
      _ | ⟨s, ok, reason⟩
    · rw [hr] at h; simp at h
    · simp only [hr]; simp

/-- With a step limit n set, fuel n + 1 suffices: the fueled interpreter
returns exactly the bfEvaluate result. -/
theorem bfEvaluateFuel_eq (code : List Char) (inputBuffer initMemory : List Int)
    (base : Int) (n : Nat) (rc om : Bool) :
    bfEvaluateFuel (n + 1) code inputBuffer initMemory base (some n) rc om
      = some (bfEvaluate code inputBuffer initMemory base n rc om) := by
  have h := bfEvaluateFuel_isSome code inputBuffer initMemory base n rc om
  rcases ho : bfEvaluateFuel (n + 1) code inputBuffer initMemory base (some n) rc om with
    _ | r
  · rw [ho] at h; simp at h
  · unfold bfEvaluate
    rw [ho]
    rfl

/-- The loop ends with STEP_LIMIT exactly when the step counter reached
the limit, and with SUCCESS exactly when it stopped below the limit. -/
theorem bfLoop_status (code : List Char) (bm : List (Nat × Nat)) (base : Int)
    (n : Nat) :
    ∀ (fuel : Nat) (s : BFState) (r : BFState × Bool × Status), s.steps < n →
      bfLoop code bm base (some n) fuel s = some r →
      (r.2.2 = Status.stepLimit ∧ r.2.1 = false ∧ r.1.steps = n) ∨
      (r.2.2 = Status.success ∧ r.2.1 = true ∧ r.1.steps < n) := by
  intro fuel
  induction fuel with
  | zero => intro s r _ h; simp [bfLoop] at h
  | succ fuel ih =>
    intro s r hs h
    unfold bfLoop at h
    split at h
    · rename_i hc
      simp only at h
      split at h
      · rename_i hn
        cases h
        left
        have h2 := execStep_steps code bm base s hc
        refine ⟨rfl, rfl, ?_⟩
        show (execStep code bm base s).steps = n
        omega
      · rename_i hn
        exact ih _ _ (by omega) h
    · cases h
      right
      exact ⟨rfl, rfl, hs⟩

/-- Raising the step limit from n to n + 1 only extends the run: the
output of the shorter run is a prefix of the output of the longer run. -/
theorem bfLoop_prefix_succ (code : List Char) (bm : List (Nat × Nat)) (base : Int)
    (n : Nat) :
    ∀ (fuel1 fuel2 : Nat) (s : BFState) (r1 r2 : BFState × Bool × Status),
      bfLoop code bm base (some n) fuel1 s = some r1 →
      bfLoop code bm base (some (n + 1)) fuel2 s = some r2 →
      r1.1.output <+: r2.1.output := by
  intro fuel1
  induction fuel1 with
  | zero => intro fuel2 s r1 r2 h1 _; simp [bfLoop] at h1
  | succ fuel1 ih =>
    intro fuel2 s r1 r2 h1 h2
    cases fuel2 with
    | zero => simp [bfLoop] at h2
    | succ fuel2 =>
      unfold bfLoop at h1 h2
      by_cases hc : s.codeptr < code.length
      · rw [if_pos hc] at h1 h2
        simp only at h1 h2
        split at h1
        · rename_i hn1
          cases h1
          split at h2
          · cases h2; exact List.prefix_rfl
          · exact bfLoop_output_mono code bm base _ _ _ _ h2
        · rename_i hn1
          split at h2
          · rename_i hn2; omega
          · exact ih fuel2 _ r1 r2 h1 h2
      · rw [if_neg hc] at h1 h2
        cases h1; cases h2
        exact List.prefix_rfl

/-- With require_correct_syntax = False the interpreter always runs the
loop; this names the loop result underlying bfEvaluate. -/
theorem bfEvaluate_noReq (code : List Char) (inputBuffer initMemory : List Int)
    (base : Int) (n : Nat) (om : Bool) :
    ∃ s ok reason,
      bfLoop code (buildbracemap code).1 base (some n) (n + 1)
          ⟨0, 0, if initMemory.isEmpty then [0] else initMemory, inputBuffer, [], 0⟩
        = some (s, ok, reason) ∧
      bfEvaluate code inputBuffer initMemory base n false om
        = ⟨s.output, ok, reason, s.steps, if om then some s.cells else none⟩ := by
  have h := bfLoop_isSome code (buildbracemap code).1 base n (n + 1)
    ⟨0, 0, if initMemory.isEmpty then [0] else initMemory, inputBuffer, [], 0⟩
    (by omega)
  rcases hr : bfLoop code (buildbracemap code).1 base (some n) (n + 1)
      ⟨0, 0, if initMemory.isEmpty then [0] else initMemory, inputBuffer, [], 0⟩ with
    _ | ⟨s, ok, reason⟩
  · rw [hr] at h; simp at h
  · refine ⟨s, ok, reason, rfl, ?_⟩
    have he := bfEvaluateFuel_eq code inputBuffer initMemory base n false om
    simp only [bfEvaluateFuel, Bool.false_and, Bool.false_eq_true, if_false, hr] at he
    exact (Option.some_inj.mp he).symm

/-- Claim C1, counterexample: the one-token program + run with
max_steps = 1 executes its last token (the same program finishes with
SUCCESS in 1 step when max_steps = 2), yet the returned status is
STEP_LIMIT, not SUCCESS as the claim predicts for a code pointer past
the program end. -/
theorem c1_counterexample :
    (bfEvaluate ['+'] [] [] 256 1 true false).failureReason = Status.stepLimit ∧
    (bfEvaluate ['+'] [] [] 256 1 true false).steps = 1 ∧
    bfEvaluate ['+'] [] [] 256 2 true false = ⟨[], true, Status.success, 1, none⟩ ∧
    Status.stepLimit ≠ Status.success := by decide

/-- Claim C1 (amended): after every executed step the interpreter checks
the step counter BEFORE the loop guard re-checks the code pointer, so
with the timeout disabled and max_steps = n ≥ 1 the result is STEP_LIMIT
exactly when n steps were executed — even when the code pointer is past
the program end — and SUCCESS exactly when the program stopped in fewer
than n steps. -/
theorem c1_step_limit_precedes_success (code : List Char)
    (inputBuffer : List Int) (base : Int) (n : Nat) (hn : 1 ≤ n) :
    ((bfEvaluate code inputBuffer [] base n false false).failureReason
        = Status.stepLimit
      ↔ (bfEvaluate code inputBuffer [] base n false false).steps = n) ∧
    ((bfEvaluate code inputBuffer [] base n false false).failureReason
        = Status.success
      ↔ (bfEvaluate code inputBuffer [] base n false false).steps < n) := by
  obtain ⟨s, ok, reason, hr, he⟩ := bfEvaluate_noReq code inputBuffer [] base n false
  have hst := bfLoop_status code (buildbracemap code).1 base n (n + 1)
    ⟨0, 0, [0], inputBuffer, [], 0⟩ (s, ok, reason) (by simpa using hn) (by simpa using hr)
  have hst2 : (reason = Status.stepLimit ∧ ok = false ∧ s.steps = n) ∨
      (reason = Status.success ∧ ok = true ∧ s.steps < n) := hst
  rw [he]
  simp only
  rcases hst2 with ⟨h1, _, h3⟩ | ⟨h1, _, h3⟩ <;> subst h1
  · simp [h3]
  · simp [h3, Nat.ne_of_lt h3]

/-- Claim C1 witness. -/
theorem c1_witness :
    1 ≤ 1 ∧
    (((bfEvaluate ['+'] [] [] 256 1 false false).failureReason = Status.stepLimit
        ↔ (bfEvaluate ['+'] [] [] 256 1 false false).steps = 1) ∧
      ((bfEvaluate ['+'] [] [] 256 1 false false).failureReason = Status.success
        ↔ (bfEvaluate ['+'] [] [] 256 1 false false).steps < 1)) :=
  ⟨by decide, c1_step_limit_precedes_success ['+'] [] 256 1 (by decide)⟩

/-- Claim C2, counterexample: the program consisting of the single
unrecognized character x returns steps = 1, although it contains no
recognized token, so the steps field does not count recognized tokens
only. -/
theorem c2_counterexample :
    'x' ∉ CHARS ∧
    bfEvaluate ['x'] [] [] 256 10 true false = ⟨[], true, Status.success, 1, none⟩ ∧
    (1 : Nat) ≠ 0 := by decide

/-- Claim C2 (amended): an unrecognized character is a no-op for the
tape, the data pointer, the input and the output, but it still consumes
one step: every loop iteration advances the code pointer by one and the
step counter by one. -/
theorem c2_invalid_char_noop_one_step (code : List Char) (bm : List (Nat × Nat))
    (base : Int) (s : BFState) (h1 : s.codeptr < code.length)
    (h2 : code.getD s.codeptr ' ' ∉ CHARS) :
    execStep code bm base s
      = { s with codeptr := s.codeptr + 1, steps := s.steps + 1 } := by
  unfold execStep
  rw [if_pos h1]
  have hcmd : execCmd bm base (code.getD s.codeptr ' ') s = s := by
    unfold execCmd
    split_ifs <;>
      first
        | rfl
        | exact absurd (show code.getD s.codeptr ' ' ∈ CHARS by
            simp_all [CHARS]) h2
  rw [hcmd]

/-- Claim C2 witness. -/
theorem c2_witness :
    (⟨0, 0, [0], [], [], 0⟩ : BFState).codeptr < (['x'] : List Char).length ∧
    (['x'] : List Char).getD 0 ' ' ∉ CHARS ∧
    execStep ['x'] [] 256 ⟨0, 0, [0], [], [], 0⟩ = ⟨1, 0, [0], [], [], 1⟩ :=
  ⟨by decide, by decide,
    c2_invalid_char_noop_one_step ['x'] [] 256 ⟨0, 0, [0], [], [], 0⟩
      (by decide) (by decide)⟩

/-- Claim C4: with the wall-clock timeout disabled, if the run with
max_steps = n did not finish with SUCCESS, its output is a prefix of the
output of the run with max_steps = n + 1. -/
theorem c4_output_prefix_monotone (code : List Char)
    (inputBuffer initMemory : List Int) (base : Int) (n : Nat) (rc : Bool)
    (h : (bfEvaluate code inputBuffer initMemory base n rc false).success = false) :
    (bfEvaluate code inputBuffer initMemory base n rc false).output <+:
      (bfEvaluate code inputBuffer initMemory base (n + 1) rc false).output := by
  have he1 := bfEvaluateFuel_eq code inputBuffer initMemory base n rc false
  have he2 := bfEvaluateFuel_eq code inputBuffer initMemory base (n + 1) rc false
  simp only [bfEvaluateFuel] at he1 he2
  by_cases hs : (rc && !(buildbracemap code).2) = true
  · rw [if_pos hs] at he1 he2
    rw [← Option.some_inj.mp he1, ← Option.some_inj.mp he2]
  · rw [if_neg hs] at he1 he2
    rcases hr1 : bfLoop code (buildbracemap code).1 base (some n) (n + 1)
        ⟨0, 0, if initMemory.isEmpty then [0] else initMemory, inputBuffer, [], 0⟩ with
      _ | ⟨s1, ok1, reason1⟩
    · rw [hr1] at he1; cases he1
    · rcases hr2 : bfLoop code (buildbracemap code).1 base (some (n + 1)) (n + 1 + 1)
          ⟨0, 0, if initMemory.isEmpty then [0] else initMemory, inputBuffer, [], 0⟩ with
        _ | ⟨s2, ok2, reason2⟩
      · rw [hr2] at he2; cases he2
      · rw [hr1] at he1
        rw [hr2] at he2
        have e1 := Option.some_inj.mp he1
        have e2 := Option.some_inj.mp he2
        rw [← e1, ← e2]
        exact bfLoop_prefix_succ code (buildbracemap code).1 base n _ _ _ _ _ hr1 hr2

/-- The invariant of claim C3: every tape cell and every not yet
consumed input value lies in [0, base). -/
def StateBounded (base : Int) (s : BFState) : Prop :=
  (∀ c ∈ s.cells, 0 ≤ c ∧ c < base) ∧ (∀ x ∈ s.inputLeft, 0 ≤ x ∧ x < base)

theorem getD_zero_bounded (base : Int) (hbase : 1 ≤ base) (l : List Int)
    (h : ∀ c ∈ l, 0 ≤ c ∧ c < base) (i : Nat) :
    0 ≤ l.getD i 0 ∧ l.getD i 0 < base := by
  rw [List.getD_eq_getElem?_getD]
  rcases hl : l[i]? with _ | v
  · constructor
    · simp
    · simp; omega
  · simp only [Option.getD_some]
    exact h v (List.getElem?_mem hl)

theorem execCmd_bounded (bm : List (Nat × Nat)) (base : Int) (c : Char)
    (s : BFState) (hbase : 1 ≤ base) (h : StateBounded base s) :
    StateBounded base (execCmd bm base c s) := by
  obtain ⟨hc, hi⟩ := h
  have hb := getD_zero_bounded base hbase s.cells hc s.cellptr
  unfold execCmd
  split_ifs <;> try exact ⟨hc, hi⟩
  · -- command >
    refine ⟨?_, hi⟩
    intro v hv
    dsimp only at hv
    split at hv
    · rcases List.mem_append.mp hv with hv | hv
      · exact hc v hv
      · simp at hv; omega
    · exact hc v hv
  · -- command +
    refine ⟨?_, hi⟩
    intro v hv
    dsimp only at hv
    rcases List.mem_or_eq_of_mem_set hv with hv | hv
    · exact hc v hv
    · subst hv
      split <;> omega
  · -- command -
    refine ⟨?_, hi⟩
    intro v hv
    dsimp only at hv
    rcases List.mem_or_eq_of_mem_set hv with hv | hv
    · exact hc v hv
    · subst hv
      split <;> omega
  · -- command ,
    cases hsplit : s.inputLeft with
    | nil =>
      refine ⟨?_, ?_⟩
      · intro v hv
        dsimp only at hv
        rcases List.mem_or_eq_of_mem_set hv with hv | hv
        · exact hc v hv
        · subst hv; omega
      · intro v hv
        dsimp only at hv
        simp at hv
    | cons y ys =>
      rw [hsplit] at hi
      refine ⟨?_, ?_⟩
      · intro v hv
        dsimp only at hv
        rcases List.mem_or_eq_of_mem_set hv with hv | hv
        · exact hc v hv
        · subst hv
          exact hi v (List.mem_cons_self v ys)
      · intro v hv
        dsimp only at hv
        exact hi v (List.mem_cons_of_mem y hv)

theorem execStep_bounded (code : List Char) (bm : List (Nat × Nat)) (base : Int)
    (s : BFState) (hbase : 1 ≤ base) (h : StateBounded base s) :
    StateBounded base (execStep code bm base s) := by
  unfold execStep
  split
  · exact execCmd_bounded bm base _ s hbase h
  · exact h

theorem execStep_iterate_bounded (code : List Char) (bm : List (Nat × Nat))
    (base : Int) (s : BFState) (hbase : 1 ≤ base) (h : StateBounded base s) :
    ∀ k : Nat, StateBounded base ((execStep code bm base)^[k] s) := by
  intro k
  induction k with
  | zero => simpa using h
  | succ k ih =>
    rw [Function.iterate_succ_apply']
    exact execStep_bounded code bm base _ hbase ih

theorem bfLoop_bounded (code : List Char) (bm : List (Nat × Nat)) (base : Int)
    (ms : Option Nat) (hbase : 1 ≤ base) :
    ∀ (fuel : Nat) (s : BFState) (r : BFState × Bool × Status),
      StateBounded base s → bfLoop code bm base ms fuel s = some r →
      StateBounded base r.1 := by
  intro fuel
  induction fuel with
  | zero => intro s r _ h; simp [bfLoop] at h
  | succ fuel ih =>
    intro s r hb h
    unfold bfLoop at h
    split at h
    · rename_i hc
      have hb2 := execStep_bounded code bm base s hbase hb
      cases ms with
      | some n =>
        simp only at h
        split at h
        · cases h; exact hb2
        · exact ih _ _ hb2 h
      | none =>
        simp only at h
        exact ih _ _ hb2 h
    · cases h
      exact hb

/-- Claim C3, counterexample: the read operation stores raw input values
without reducing them modulo base, so with input [5] and base 2 the tape
holds the cell value 5, violating cell < base. -/
theorem c3_counterexample :
    (bfEvaluate [','] [5] [] 2 10 true true).memory = some [5] ∧
    ¬ ((5 : Int) < 2) := by decide

/-- Claim C3 (amended): if base ≥ 2 and every input-buffer value and
every init_memory value lies in [0, base), then every tape cell lies in
[0, base) at every point of the execution (every iterate of the loop
body from the initial state), and in particular in the final memory
returned by bfEvaluate. -/
theorem c3_cells_in_range (code : List Char) (inputBuffer initMemory : List Int)
    (base : Int) (hbase : 2 ≤ base)
    (hin : ∀ x ∈ inputBuffer, 0 ≤ x ∧ x < base)
    (hinit : ∀ x ∈ initMemory, 0 ≤ x ∧ x < base) :
    (∀ k : Nat, ∀ c ∈ ((execStep code (buildbracemap code).1 base)^[k]
        ⟨0, 0, if initMemory.isEmpty then [0] else initMemory, inputBuffer, [], 0⟩).cells,
        0 ≤ c ∧ c < base) ∧
    (∀ (n : Nat) (rc : Bool) (mem : List Int),
        (bfEvaluate code inputBuffer initMemory base n rc true).memory = some mem →
        ∀ c ∈ mem, 0 ≤ c ∧ c < base) := by
  have hb1 : (1 : Int) ≤ base := by omega
  have hinitState : StateBounded base
      ⟨0, 0, if initMemory.isEmpty then [0] else initMemory, inputBuffer, [], 0⟩ := by
    constructor
    · intro c hc
      split at hc
      · simp at hc; omega
      · exact hinit c hc
    · exact hin
  constructor
  · intro k
    exact (execStep_iterate_bounded code (buildbracemap code).1 base _ hb1 hinitState k).1
  · intro n rc mem hmem
    have he := bfEvaluateFuel_eq code inputBuffer initMemory base n rc true
    simp only [bfEvaluateFuel] at he
    by_cases hs : (rc && !(buildbracemap code).2) = true
    · rw [if_pos hs] at he
      have e := Option.some_inj.mp he
      rw [← e] at hmem
      simp only at hmem
      cases hmem
      intro c hc
      simp at hc
    · rw [if_neg hs] at he
      rcases hr : bfLoop code (buildbracemap code).1 base (some n) (n + 1)
          ⟨0, 0, if initMemory.isEmpty then [0] else initMemory, inputBuffer, [], 0⟩ with
        _ | ⟨s, ok, reason⟩
      · rw [hr] at he; cases he
      · rw [hr] at he
        have e := Option.some_inj.mp he
        have hbd := bfLoop_bounded code (buildbracemap code).1 base (some n) hb1
          (n + 1) _ _ hinitState hr
        rw [← e] at hmem
        simp only at hmem
        cases hmem
        exact hbd.1

/-- Claim C3 witness. -/
theorem c3_witness :
    (2 : Int) ≤ 2 ∧
    ((∀ k : Nat, ∀ c ∈ ((execStep [','] (buildbracemap [',']).1 2)^[k]
        ⟨0, 0, [0], [1], [], 0⟩).cells, 0 ≤ c ∧ c < 2) ∧
      (∀ (n : Nat) (rc : Bool) (mem : List Int),
        (bfEvaluate [','] [1] [] 2 n rc true).memory = some mem →
        ∀ c ∈ mem, 0 ≤ c ∧ c < 2)) := by
  refine ⟨by decide, ?_⟩
  have h := c3_cells_in_range [','] [1] [] 2 (by decide)
    (by intro x hx; simp at hx; omega) (by intro x hx; simp at hx)
  simpa using h

/-- Claim C4 witness. -/
theorem c4_witness :
    (bfEvaluate ['+', '.', '+', '.'] [] [] 256 2 true false).success = false ∧
    (bfEvaluate ['+', '.', '+', '.'] [] [] 256 2 true false).output <+:
      (bfEvaluate ['+', '.', '+', '.'] [] [] 256 3 true false).output :=
  ⟨by decide, c4_output_prefix_monotone ['+', '.', '+', '.'] [] [] 256 2 true (by decide)⟩

/-! ## Scoring wrapper (code_tasks.py): MultiIOTaskManager -/

/-- Embeds MAX_EXECUTION_STEPS of code_tasks.py (line 4045). -/
def MAX_EXECUTION_STEPS : Nat := 5000

/-- Embeds clipped_linear of code_tasks.py (lines 4155-4157), with the
y_range pair passed as two arguments. -/
def clipped_linear (x x0 y0 slope minY maxY : ℚ) : ℚ :=
  min (max (slope * (x - x0) + y0) minY) maxY

/-- The values the reason string of _score_code can take: the literals
correct and wrong, or an interpreter failure status string. -/
inductive ScoreReason where
  | correct
  | wrong
  | failure (st : Status)
deriving DecidableEq

/-- Embeds misc.RewardInfo as constructed by _score_code (floats as
rationals, IOTuple as list). -/
structure RewardInfo where
  episodeRewards : List ℚ
  inputCase : List (List Int)
  correctOutput : List (List Int)
  codeOutput : List (List Int)
  reason : ScoreReason

/-- The keyword defaults of the MultiIOTaskManager constructor
(code_tasks.py lines 4163-4166), taken verbatim from the def line. -/
structure MITMDefaults where
  maxCodeLength : ℚ
  minCodeLength : ℚ
  maxExecutionSteps : Nat
  correctBonus : ℚ
  codeLengthBonus : ℚ
  failureReward : ℚ
  requireCorrectStx : Bool

/-- max_code_length=32, min_code_length=0,
max_execution_steps=MAX_EXECUTION_STEPS, correct_bonus=1.0,
code_length_bonus=1.0, failure_reward=-2.0,
require_correct_syntax=False. -/
def multiIOTaskManagerDefaults : MITMDefaults :=
  { maxCodeLength := 32
    minCodeLength := 0
    maxExecutionSteps := MAX_EXECUTION_STEPS
    correctBonus := 1
    codeLengthBonus := 1
    failureReward := -2
    requireCorrectStx := false }

/-- The time_penalty computation of the constructor (lines 4176-4178). -/
def timePenaltyOf (maxL minL : ℚ) : ℚ :=
  if maxL > minL then 1 / (maxL - minL) else 0

/-- The state of a constructed MultiIOTaskManager: configuration fields,
the value of task.make_io_set(), the task base, and the injected reward
function (self.reward_fn). -/
structure MultiIOTaskManager where
  ioSeqs : List (List Int × List Int)
  base : Int
  maxCodeLength : ℚ
  minCodeLength : ℚ
  maxExecutionSteps : Nat
  requireCorrectStx : Bool
  correctBonus : ℚ
  codeLengthBonus : ℚ
  failureReward : ℚ
  rewardFn : List Int → List Int → Int → ℚ

/-- self.time_penalty as computed in the constructor. -/
def MultiIOTaskManager.timePenalty (m : MultiIOTaskManager) : ℚ :=
  timePenaltyOf m.maxCodeLength m.minCodeLength

/-- Embeds _compute_best_reward (lines 4190-4199): self.best_reward. -/
def MultiIOTaskManager.bestReward (m : MultiIOTaskManager) : ℚ :=
  (m.ioSeqs.map (fun io => m.rewardFn io.2 io.2 m.base + m.correctBonus
    + m.codeLengthBonus)).sum

/-- The test-case loop of _score_code (lines 4221-4252), carrying the
accumulated reward, the per-case outputs and the reason.  An interpreter
failure sets the accumulator to failure_reward, empties the outputs,
records the status and stops (the source breaks out of the loop). -/
def scoreLoop (m : MultiIOTaskManager) (code : List Char) :
    List (List Int × List Int) → ℚ → List (List Int) → ScoreReason →
    ℚ × List (List Int) × ScoreReason
  | [], acc, results, reason => (acc, results, reason)
  | (inputSeq, outputSeq) :: rest, acc, results, reason =>
    let er := bfEvaluate code inputSeq [] m.base m.maxExecutionSteps
      m.requireCorrectStx false
    if er.success = false then
      (m.failureReward, [], ScoreReason.failure er.failureReason)
    else
      let acc2 := acc + m.rewardFn er.output outputSeq m.base
      let acc3 :=
        if er.output = outputSeq then
          acc2 + m.correctBonus +
            (if m.minCodeLength = m.maxCodeLength then m.codeLengthBonus
             else m.codeLengthBonus *
               clipped_linear (code.length : ℚ) m.minCodeLength 1
                 (- m.timePenalty) 0 1)
        else acc2
      let reason2 :=
        if er.output = outputSeq then reason
        else if reason = ScoreReason.correct then ScoreReason.wrong else reason
      scoreLoop m code rest acc3 (results ++ [er.output]) reason2

/-- Embeds _score_code (lines 4204-4264): runs the loop from the initial
accumulator 0, outputs [] and reason correct, divides the terminal
reward by best_reward, and shapes the episode rewards. -/
def scoreCode (m : MultiIOTaskManager) (code : List Char) : RewardInfo :=
  let res := scoreLoop m code m.ioSeqs 0 [] ScoreReason.correct
  { episodeRewards := List.replicate (code.length - 1) 0 ++ [res.1 / m.bestReward]
    inputCase := m.ioSeqs.map Prod.fst
    correctOutput := m.ioSeqs.map Prod.snd
    codeOutput := res.2.1
    reason := res.2.2 }

theorem scoreLoop_failure (m : MultiIOTaskManager) (code : List Char)
    (pre post : List (List Int × List Int)) (inp out : List Int)
    (hpre : ∀ p ∈ pre,
      (bfEvaluate code p.1 [] m.base m.maxExecutionSteps m.requireCorrectStx
        false).success = true)
    (hfail : (bfEvaluate code inp [] m.base m.maxExecutionSteps m.requireCorrectStx
        false).success = false) :
    ∀ (acc : ℚ) (results : List (List Int)) (reason : ScoreReason),
      scoreLoop m code (pre ++ (inp, out) :: post) acc results reason
        = (m.failureReward, [], ScoreReason.failure
            (bfEvaluate code inp [] m.base m.maxExecutionSteps m.requireCorrectStx
              false).failureReason) := by
  induction pre with
  | nil =>
    intro acc results reason
    simp only [List.nil_append, scoreLoop, hfail, if_true]
  | cons p pre ih =>
    intro acc results reason
    obtain ⟨pin, pout⟩ := p
    have hp := hpre (pin, pout) (List.mem_cons_self _ _)
    simp only [List.cons_append, scoreLoop]
    rw [if_neg (by simp [hp])]
    exact ih (fun q hq => hpre q (List.mem_cons_of_mem _ hq)) _ _ _

/-- Claim C5: if the interpreter fails on some test case (all earlier
cases having succeeded), _score_code returns the failure reward scaled
by best_reward as the only nonzero episode reward, an empty per-case
output list, the failing status as reason, and the loop result does not
depend on the remaining test cases. -/
theorem c5_score_failure (m : MultiIOTaskManager) (code : List Char)
    (pre post : List (List Int × List Int)) (inp out : List Int)
    (hio : m.ioSeqs = pre ++ (inp, out) :: post)
    (hpre : ∀ p ∈ pre,
      (bfEvaluate code p.1 [] m.base m.maxExecutionSteps m.requireCorrectStx
        false).success = true)
    (hfail : (bfEvaluate code inp [] m.base m.maxExecutionSteps m.requireCorrectStx
        false).success = false) :
    (scoreCode m code).codeOutput = [] ∧
    (scoreCode m code).reason = ScoreReason.failure
      (bfEvaluate code inp [] m.base m.maxExecutionSteps m.requireCorrectStx
        false).failureReason ∧
    (scoreCode m code).episodeRewards
      = List.replicate (code.length - 1) 0 ++ [m.failureReward / m.bestReward] ∧
    (scoreCode m code).episodeRewards.getLast?
      = some (m.failureReward / m.bestReward) ∧
    scoreLoop m code m.ioSeqs 0 [] ScoreReason.correct
      = scoreLoop m code (pre ++ [(inp, out)]) 0 [] ScoreReason.correct := by
  have h1 := scoreLoop_failure m code pre post inp out hpre hfail 0 [] ScoreReason.correct
  have h2 := scoreLoop_failure m code pre [] inp out hpre hfail 0 [] ScoreReason.correct
  refine ⟨?_, ?_, ?_, ?_, ?_⟩
  · simp only [scoreCode, hio, h1]
  · simp only [scoreCode, hio, h1]
  · simp only [scoreCode, hio, h1]
  · simp only [scoreCode, hio, h1, List.getLast?_concat]
  · rw [hio, h1, h2]

/-- Claim C5 witness: a one-case manager whose single case hits the step
limit (max_execution_steps = 1 on a 2-token program). -/
theorem c5_witness :
    ((⟨[([], [])], 256, 2, 0, 1, true, 1, 1, -2, fun _ _ _ => 0⟩ :
        MultiIOTaskManager).ioSeqs = [] ++ ([], ([] : List Int)) :: []) ∧
    ((bfEvaluate ['+', '+'] [] [] 256 1 true false).success = false) ∧
    (scoreCode ⟨[([], [])], 256, 2, 0, 1, true, 1, 1, -2, fun _ _ _ => 0⟩
        ['+', '+']).codeOutput = [] := by
  refine ⟨rfl, by decide, ?_⟩
  have h := c5_score_failure
    ⟨[([], [])], 256, 2, 0, 1, true, 1, 1, -2, fun _ _ _ => 0⟩
    ['+', '+'] [] [] [] [] rfl (by intro p hp; simp at hp) (by decide)
  exact h.1

/-- Claim C6, counterexample: the constructor default of correct_bonus
is 1.0, not 2.0 as the claim states (2.0 is the default of the separate
make_task helper, not of the constructor). -/
theorem c6_counterexample :
    multiIOTaskManagerDefaults.correctBonus = 1 ∧ (1 : ℚ) ≠ 2 := by
  constructor
  · rfl
  · decide

/-- Claim C6 (amended): the MultiIOTaskManager constructor defaults are
max_execution_steps = 5000, correct_bonus = 1.0, code_length_bonus =
1.0, failure_reward = -2.0, and time_penalty = 1/(max_code_length -
min_code_length) when max_code_length > min_code_length, else 0. -/
theorem c6_defaults :
    multiIOTaskManagerDefaults.maxExecutionSteps = 5000 ∧
    multiIOTaskManagerDefaults.correctBonus = 1 ∧
    multiIOTaskManagerDefaults.codeLengthBonus = 1 ∧
    multiIOTaskManagerDefaults.failureReward = -2 ∧
    (∀ maxL minL : ℚ, timePenaltyOf maxL minL
        = if maxL > minL then 1 / (maxL - minL) else 0) :=
  ⟨rfl, rfl, rfl, rfl, fun _ _ => rfl⟩

/-! ## GA crossover (ga_lib.py) -/

/-- Embeds crossover of ga_lib.py (lines 6934-6957); the random position
pos (random.randrange over the longer parent) is a parameter.  Note that
on equal lengths the source picks parent2 as max_parent. -/
def crossoverGo {α : Type _} (maxParent minParent : List α) (pos : Nat) :
    List α × List α :=
  if pos ≥ minParent.length then
    (maxParent.take pos, minParent ++ maxParent.drop pos)
  else
    (maxParent.take pos ++ minParent.drop pos,
      minParent.take pos ++ maxParent.drop pos)

/-- The max_parent, min_parent selection of crossover (lines 6947-6949):
on equal lengths parent2 is max_parent. -/
def crossover {α : Type _} (parent1 parent2 : List α) (pos : Nat) :
    List α × List α :=
  if parent1.length > parent2.length then crossoverGo parent1 parent2 pos
  else crossoverGo parent2 parent1 pos

/-- Claim C10: for any parents with the longer one non-empty (so that
the random position pos < max of the lengths exists), the two children
of crossover have lengths summing to the parents' length sum, and
neither child is longer than the longer parent. -/
theorem c10_crossover_lengths {α : Type _} (p1 p2 : List α) (pos : Nat)
    (hpos : pos < max p1.length p2.length) :
    (crossover p1 p2 pos).1.length + (crossover p1 p2 pos).2.length
        = p1.length + p2.length ∧
    (crossover p1 p2 pos).1.length ≤ max p1.length p2.length ∧
    (crossover p1 p2 pos).2.length ≤ max p1.length p2.length := by
  simp only [crossover, crossoverGo]
  split_ifs with h1 h2 h3 <;>
    simp only [List.length_take, List.length_drop, List.length_append] <;>
    omega

/-- Claim C10 witness. -/
theorem c10_witness :
    (1 < max ([0, 1] : List Int).length ([5] : List Int).length) ∧
    ((crossover ([0, 1] : List Int) [5] 1).1.length
          + (crossover ([0, 1] : List Int) [5] 1).2.length
        = ([0, 1] : List Int).length + ([5] : List Int).length ∧
      (crossover ([0, 1] : List Int) [5] 1).1.length
        ≤ max ([0, 1] : List Int).length ([5] : List Int).length ∧
      (crossover ([0, 1] : List Int) [5] 1).2.length
        ≤ max ([0, 1] : List Int).length ([5] : List Int).length) :=
  ⟨by decide, c10_crossover_lengths [0, 1] [5] 1 (by decide)⟩

/-! ## Results store (results_lib.py) -/

/-- One line of a shard file: a result dict.  Only the
max_local_repetitions key matters to the claims; the rest of the dict is
the payload. -/
structure ResultEntry (α : Type _) where
  maxLocalRepetitions : Nat
  payload : α
deriving DecidableEq

/-- Embeds the ShardStats namedtuple of results_lib.py. -/
structure ShardStats where
  numLocalRepsCompleted : Nat
  maxLocalReps : Nat
  finished : Bool
deriving DecidableEq

/-- Embeds ge_non_zero of results_lib.py (lines 5724-5725). -/
def ge_non_zero (a b : Nat) : Bool :=
  decide (a ≥ b) && decide (b > 0)

/-- The max_local_repetitions value shared by the entries of a shard
(0 for an empty shard), as read by _get_max_local_reps. -/
def declaredOf {α : Type _} (shard : List (ResultEntry α)) : Nat :=
  ((shard.head?).map (fun e => e.maxLocalRepetitions)).getD 0

/-- Embeds _get_max_local_reps of results_lib.py (lines 5780-5803):
none models the assertion failure on shards whose entries disagree. -/
def getMaxLocalReps {α : Type _} (shard : List (ResultEntry α)) : Option Nat :=
  match shard.map (fun r => r.maxLocalRepetitions) with
  | [] => some 0
  | m :: rest => if rest.all (fun n => n = m) then some m else none

/-- The stats loop of read_all (lines 5847-5853). -/
def shardStatsAll {α : Type _} :
    List (List (ResultEntry α)) → Option (List ShardStats)
  | [] => some []
  | shard :: rest =>
    match getMaxLocalReps shard, shardStatsAll rest with
    | some mlr, some stats =>
        some (⟨shard.length, mlr, ge_non_zero shard.length mlr⟩ :: stats)
    | _, _ => none

/-- Embeds read_all of results_lib.py (lines 5805-5859) in the
num_shards-given branch.  The directory is the finite map from shard id
(parsed from the file name) to the entries of that shard file; ids
absent from the directory are files that do not exist and read as []. -/
def readAll {α : Type _} (dir : List (Nat × List (ResultEntry α)))
    (numShards : Nat) : Option (List (ResultEntry α) × List ShardStats) :=
  let resultsPerShard := (List.range numShards).map (fun i => (dir.lookup i).getD [])
  match shardStatsAll resultsPerShard with
  | none => none
  | some stats => some (resultsPerShard.flatten, stats)

/-- A shard whose entries all carry the declared max_local_repetitions
value (the source asserts this). -/
def ShardConsistent {α : Type _} (shard : List (ResultEntry α)) : Prop :=
  ∀ e ∈ shard, e.maxLocalRepetitions = declaredOf shard

theorem getMaxLocalReps_of_consistent {α : Type _}
    (shard : List (ResultEntry α)) (h : ShardConsistent shard) :
    getMaxLocalReps shard = some (declaredOf shard) := by
  cases shard with
  | nil => rfl
  | cons e es =>
    simp only [getMaxLocalReps, List.map_cons]
    rw [if_pos]
    · simp [declaredOf]
    · simp only [List.all_eq_true, List.mem_map, decide_eq_true_eq]
      rintro n ⟨x, hx, rfl⟩
      have h1 := h x (List.mem_cons_of_mem e hx)
      simpa [declaredOf] using h1

theorem shardStatsAll_of_consistent {α : Type _}
    (shards : List (List (ResultEntry α)))
    (h : ∀ shard ∈ shards, ShardConsistent shard) :
    shardStatsAll shards = some (shards.map (fun shard =>
      ⟨shard.length, declaredOf shard,
        ge_non_zero shard.length (declaredOf shard)⟩)) := by
  induction shards with
  | nil => rfl
  | cons shard rest ih =>
    simp only [shardStatsAll,
      getMaxLocalReps_of_consistent shard (h shard (List.mem_cons_self _ _)),
      ih (fun q hq => h q (List.mem_cons_of_mem _ hq)), List.map_cons]

/-- Claim C9, counterexample: a directory holding only the shard file
with id 3 and one entry, read with num_shards = 1: the file is
discovered (it matches the shard-file pattern) yet its entry is missing
from the aggregate, which is empty. -/
theorem c9_counterexample :
    readAll [(3, [(⟨2, 0⟩ : ResultEntry Nat)])] 1
      = some ([], [⟨0, 0, false⟩]) ∧
    ([(3, [(⟨2, 0⟩ : ResultEntry Nat)])].map Prod.snd).flatten
      = [(⟨2, 0⟩ : ResultEntry Nat)] ∧
    ([] : List (ResultEntry Nat)) ≠ [⟨2, 0⟩] := by
  refine ⟨rfl, rfl, ?_⟩
  decide

/-- Claim C9 (amended): read_all(num_shards=N) aggregates exactly the
entries of the present shard files with ids 0..N-1 in id order (absent
ids contribute nothing; discovered files with id ≥ N are ignored), and
the stats mark shard i finished iff its entry count is ≥ the declared
max_local_repetitions and that declared value is > 0; a missing or
empty shard is never finished. -/
theorem c9_read_all_spec {α : Type _} (dir : List (Nat × List (ResultEntry α)))
    (numShards : Nat)
    (h : ∀ i < numShards, ShardConsistent ((dir.lookup i).getD [])) :
    readAll dir numShards = some (
      ((List.range numShards).map (fun i => (dir.lookup i).getD [])).flatten,
      ((List.range numShards).map (fun i => (dir.lookup i).getD [])).map
        (fun shard => ⟨shard.length, declaredOf shard,
          ge_non_zero shard.length (declaredOf shard)⟩)) ∧
    (∀ a b : Nat, ge_non_zero a b = true ↔ b ≤ a ∧ 0 < b) ∧
    (∀ shard : List (ResultEntry α), shard = [] →
      ge_non_zero shard.length (declaredOf shard) = false) := by
  refine ⟨?_, ?_, ?_⟩
  · have hall : ∀ shard ∈ (List.range numShards).map
        (fun i => (dir.lookup i).getD []), ShardConsistent shard := by
      intro shard hs
      simp only [List.mem_map, List.mem_range] at hs
      obtain ⟨i, hi, hieq⟩ := hs
      rw [← hieq]
      exact h i hi
    simp only [readAll, shardStatsAll_of_consistent _ hall]
  · intro a b
    simp [ge_non_zero]
  · intro shard hs
    subst hs
    rfl

/-- Claim C9 witness: shard 0 present and finished (2 entries, declared
2), shard 1 present and unfinished (1 entry, declared 3), shard 2
missing. -/
theorem c9_witness :
    (∀ i < 3, ShardConsistent
      ((([(0, [⟨2, 10⟩, ⟨2, 11⟩]), (1, [⟨3, 12⟩])] :
          List (Nat × List (ResultEntry Nat))).lookup i).getD [])) ∧
    readAll ([(0, [⟨2, 10⟩, ⟨2, 11⟩]), (1, [⟨3, 12⟩])] :
        List (Nat × List (ResultEntry Nat))) 3
      = some ([⟨2, 10⟩, ⟨2, 11⟩, ⟨3, 12⟩],
          [⟨2, 2, true⟩, ⟨1, 3, false⟩, ⟨0, 0, false⟩]) := by
  have hcons : ∀ i < 3, ShardConsistent
      ((([(0, [⟨2, 10⟩, ⟨2, 11⟩]), (1, [⟨3, 12⟩])] :
          List (Nat × List (ResultEntry Nat))).lookup i).getD []) := by
    intro i hi
    unfold ShardConsistent
    interval_cases i <;> decide
  refine ⟨hcons, ?_⟩
  have h := (c9_read_all_spec ([(0, [⟨2, 10⟩, ⟨2, 11⟩]), (1, [⟨3, 12⟩])] :
    List (Nat × List (ResultEntry Nat))) 3 hcons).1
  rw [h]
  rfl

/-! ## MaxUniquePriorityQueue (utils.py)

The Python heap is an array managed by the heapq standard library; only
its multiset of entries matters to the claims, so the array is modelled
by the list of its entries and heapq.heappush / heapq.heappushpop by
their library contract: heappush adds the entry, heappushpop pushes the
entry and then pops a least-scored one (returning the pushed entry
itself when no stored entry is strictly smaller, exactly as
`if heap and heap[0] < item` does). -/

/-- Embeds MPQItemContainer of utils.py: score plus item plus extra
data; comparison is by score only (its cmp method). -/
structure MPQItem (α β : Type _) where
  score : Int
  item : α
  extra : β
deriving DecidableEq

/-- Removes one least-scored entry: helper realizing the heap-pop
contract on the entry list. -/
def heapPopMin {α β : Type _} :
    List (MPQItem α β) → Option (MPQItem α β × List (MPQItem α β))
  | [] => none
  | x :: xs =>
    match heapPopMin xs with
    | none => some (x, [])
    | some (m, rest) =>
        if m.score < x.score then some (m, x :: rest) else some (x, xs)

/-- heapq.heappush by its contract: the heap gains the entry. -/
def heappush {α β : Type _} (heap : List (MPQItem α β)) (it : MPQItem α β) :
    List (MPQItem α β) :=
  heap ++ [it]

/-- heapq.heappushpop by its contract: push then pop the smallest; when
no stored entry has a strictly smaller score than the pushed one, the
pushed entry itself is returned and the heap is unchanged. -/
def heappushpop {α β : Type _} (heap : List (MPQItem α β)) (it : MPQItem α β) :
    MPQItem α β × List (MPQItem α β) :=
  match heapPopMin heap with
  | none => (it, heap)
  | some (m, rest) => if m.score < it.score then (m, rest ++ [it]) else (it, heap)

/-- Embeds MaxUniquePriorityQueue of utils.py (lines 1632-1751). -/
structure MaxUniquePriorityQueue (α β : Type _) [DecidableEq α] where
  capacity : Nat
  heap : List (MPQItem α β)
  unique_items : Finset α

/-- Embeds MaxUniquePriorityQueue.push (lines 1651-1674): a duplicate
item is a no-op; at capacity heappushpop evicts, the item is added to
the membership set and the popped item removed from it (in that source
order, so a rejected push leaves the set unchanged). -/
def MaxUniquePriorityQueue.push {α β : Type _} [DecidableEq α]
    (q : MaxUniquePriorityQueue α β) (score : Int) (item : α) (extra : β) :
    MaxUniquePriorityQueue α β :=
  if item ∈ q.unique_items then q
  else if q.capacity ≤ q.heap.length then
    let pr := heappushpop q.heap ⟨score, item, extra⟩
    { q with heap := pr.2, unique_items := (insert item q.unique_items).erase pr.1.item }
  else
    { q with
        heap := heappush q.heap (⟨score, item, extra⟩ : MPQItem α β),
        unique_items := insert item q.unique_items }

/-- The constructor (lines 1646-1649). -/
def MaxUniquePriorityQueue.empty (α β : Type _) [DecidableEq α]
    (capacity : Nat) : MaxUniquePriorityQueue α β :=
  ⟨capacity, [], ∅⟩

/-- A sequence of push score item calls starting from an empty queue of
the given capacity. -/
def pushFold {α : Type _} [DecidableEq α] (C : Nat) (ps : List (Int × α)) :
    MaxUniquePriorityQueue α Unit :=
  ps.foldl (fun q p => q.push p.1 p.2 ()) (MaxUniquePriorityQueue.empty α Unit C)

theorem heapPopMin_eq_none {α β : Type _} (l : List (MPQItem α β)) :
    heapPopMin l = none ↔ l = [] := by
  cases l with
  | nil => simp [heapPopMin]
  | cons x xs =>
    simp only [heapPopMin]
    constructor
    · intro h
      rcases hm : heapPopMin xs with _ | ⟨m, rest⟩
      · rw [hm] at h; simp at h
      · rw [hm] at h
        by_cases hlt : m.score < x.score <;> simp [hlt] at h
    · intro h; cases h

theorem heapPopMin_perm {α β : Type _} :
    ∀ (l : List (MPQItem α β)) (m : MPQItem α β) (rest : List (MPQItem α β)),
      heapPopMin l = some (m, rest) → l.Perm (m :: rest) := by
  intro l
  induction l with
  | nil => intro m rest h; simp [heapPopMin] at h
  | cons x xs ih =>
    intro m rest h
    simp only [heapPopMin] at h
    split at h
    · rename_i hm
      have hx : xs = [] := (heapPopMin_eq_none xs).mp hm
      simp only [Option.some_inj] at h
      cases h
      rw [hx]
    · rename_i m0 rest0 hm
      split at h
      · rename_i hlt
        simp only [Option.some_inj] at h
        cases h
        exact (List.Perm.cons x (ih _ _ hm)).trans (List.Perm.swap _ x _)
      · simp only [Option.some_inj] at h
        cases h
        exact List.Perm.refl _

theorem heapPopMin_le {α β : Type _} :
    ∀ (l : List (MPQItem α β)) (m : MPQItem α β) (rest : List (MPQItem α β)),
      heapPopMin l = some (m, rest) → ∀ e ∈ l, m.score ≤ e.score := by
  intro l
  induction l with
  | nil => intro m rest h; simp [heapPopMin] at h
  | cons x xs ih =>
    intro m rest h e he
    simp only [heapPopMin] at h
    split at h
    · rename_i hm
      have hx : xs = [] := (heapPopMin_eq_none xs).mp hm
      simp only [Option.some_inj] at h
      cases h
      subst hx
      simp at he
      rw [he]
    · rename_i m0 rest0 hm
      split at h
      · rename_i hlt
        simp only [Option.some_inj] at h
        cases h
        rcases List.mem_cons.mp he with he | he
        · subst he; omega
        · exact ih _ _ hm e he
      · rename_i hlt
        simp only [Option.some_inj] at h
        cases h
        rcases List.mem_cons.mp he with he | he
        · subst he; omega
        · have := ih _ _ hm e he
          omega

/-- In a list of pushes with pairwise-distinct items, two pushes with
the same item are the same push. -/
theorem pairs_eq_of_nodup_snd {α : Type _} :
    ∀ (ps : List (Int × α)), (ps.map Prod.snd).Nodup →
      ∀ p q : Int × α, p ∈ ps → q ∈ ps → p.2 = q.2 → p = q := by
  intro ps
  induction ps with
  | nil => intro _ p q hp; simp at hp
  | cons r rs ih =>
    intro hnd p q hp hq heq
    simp only [List.map_cons, List.nodup_cons] at hnd
    obtain ⟨hr, hnd⟩ := hnd
    rcases List.mem_cons.mp hp with hpr | hp2 <;>
      rcases List.mem_cons.mp hq with hqr | hq2
    · rw [hpr, hqr]
    · subst hpr
      refine absurd ?_ hr
      rw [heq]
      exact List.mem_map_of_mem Prod.snd hq2
    · subst hqr
      refine absurd ?_ hr
      rw [← heq]
      exact List.mem_map_of_mem Prod.snd hp2
    · exact ih hnd p q hp2 hq2 heq

/-- The invariant carried through a sequence of distinct-item pushes:
capacity fixed, heap size min(C, pushes so far), heap entries among the
pushes, every pushed score absent from the heap is dominated by every
stored score (and the heap is full), stored items are distinct, and the
membership set only holds pushed items. -/
def PushInv {α : Type _} [DecidableEq α] (C : Nat) (ps : List (Int × α))
    (q : MaxUniquePriorityQueue α Unit) : Prop :=
  q.capacity = C ∧
  q.heap.length = min C ps.length ∧
  (∀ e ∈ q.heap, (e.score, e.item) ∈ ps) ∧
  (∀ p ∈ ps, p.2 ∉ q.heap.map MPQItem.item →
      q.heap.length = C ∧ ∀ e ∈ q.heap, p.1 ≤ e.score) ∧
  (q.heap.map MPQItem.item).Nodup ∧
  (∀ a ∈ q.unique_items, a ∈ ps.map Prod.snd)

theorem push_step {α : Type _} [DecidableEq α] (C : Nat)
    (q : MaxUniquePriorityQueue α Unit) (ps : List (Int × α)) (s : Int) (i : α)
    (hndps : (ps.map Prod.snd).Nodup)
    (hInv : PushInv C ps q) (hfresh : i ∉ ps.map Prod.snd) :
    PushInv C (ps ++ [(s, i)]) (q.push s i ()) := by
  obtain ⟨hcap, hlen, hcont, hdom, hnd, hsub⟩ := hInv
  have hiU : i ∉ q.unique_items := fun hi => hfresh (hsub i hi)
  have hiHeap : i ∉ q.heap.map MPQItem.item := by
    intro hih
    rcases List.mem_map.mp hih with ⟨e, he, hei⟩
    exact hfresh (hei ▸ List.mem_map_of_mem Prod.snd (hcont e he))
  have hsnd : (ps ++ [(s, i)]).map Prod.snd = ps.map Prod.snd ++ [i] := by
    simp
  unfold MaxUniquePriorityQueue.push
  rw [if_neg hiU]
  by_cases hfull : q.capacity ≤ q.heap.length
  · rw [if_pos hfull]
    have hlenC : q.heap.length = C := by omega
    have hpsC : C ≤ ps.length := by omega
    rcases hpm : heapPopMin q.heap with _ | ⟨m, rest⟩
    · -- the heap is empty, so the capacity is 0 and the push is dropped
      have hnil : q.heap = [] := (heapPopMin_eq_none q.heap).mp hpm
      have hC0 : C = 0 := by rw [hnil] at hlenC; simpa using hlenC.symm
      simp only [heappushpop, hpm]
      refine ⟨hcap, ?_, ?_, ?_, ?_, ?_⟩
      · simp [hnil, hC0]
      · intro e he
        rw [hnil] at he
        simp at he
      · intro p _ _
        constructor
        · simp [hnil, hC0]
        · intro e he
          rw [hnil] at he
          simp at he
      · simp [hnil]
      · intro a ha
        have ha2 := Finset.mem_of_mem_erase ha
        rw [hsnd]
        rcases Finset.mem_insert.mp ha2 with ha3 | ha3
        · simp [ha3]
        · exact List.mem_append_left _ (hsub a ha3)
    · -- the heap is nonempty
      have hperm := heapPopMin_perm q.heap m rest hpm
      have hmin := heapPopMin_le q.heap m rest hpm
      have hmMem : m ∈ q.heap := hperm.mem_iff.mpr (List.mem_cons_self m rest)
      have hmPs : (m.score, m.item) ∈ ps := hcont m hmMem
      have hmi : m.item ≠ i := by
        intro hmi
        exact hfresh (hmi ▸ List.mem_map_of_mem Prod.snd hmPs)
      have hpermLen : q.heap.length = rest.length + 1 := by
        have := hperm.length_eq
        simpa using this
      have hrestSub : ∀ e ∈ rest, e ∈ q.heap :=
        fun e he => hperm.mem_iff.mpr (List.mem_cons_of_mem m he)
      have hItemsPerm : (q.heap.map MPQItem.item).Perm
          (m.item :: rest.map MPQItem.item) := by
        simpa using hperm.map MPQItem.item
      have hndCons : (m.item :: rest.map MPQItem.item).Nodup :=
        hItemsPerm.nodup_iff.mp hnd
      have hmNotRest : m.item ∉ rest.map MPQItem.item :=
        (List.nodup_cons.mp hndCons).1
      have hndRest : (rest.map MPQItem.item).Nodup :=
        (List.nodup_cons.mp hndCons).2
      have hiRest : i ∉ rest.map MPQItem.item := by
        intro hin
        exact hiHeap (hItemsPerm.mem_iff.mpr (List.mem_cons_of_mem _ hin))
      simp only [heappushpop, hpm]
      by_cases hlt : m.score < s
      · rw [if_pos hlt]
        refine ⟨hcap, ?_, ?_, ?_, ?_, ?_⟩
        · simp only [List.length_append, List.length_singleton]
          omega
        · intro e he
          rcases List.mem_append.mp he with he | he
          · exact List.mem_append_left _ (hcont e (hrestSub e he))
          · simp only [List.mem_singleton] at he
            subst he
            simp
        · intro p hp hnotin
          simp only [List.map_append, List.map_cons, List.map_nil] at hnotin
          constructor
          · simp only [List.length_append, List.length_singleton]
            omega
          · rcases List.mem_append.mp hp with hp | hp
            · by_cases hpm2 : p.2 = m.item
              · have hpeq : p = (m.score, m.item) :=
                  pairs_eq_of_nodup_snd ps hndps p (m.score, m.item) hp hmPs hpm2
                intro e he
                rcases List.mem_append.mp he with he | he
                · have := hmin e (hrestSub e he)
                  rw [hpeq]
                  exact this
                · simp only [List.mem_singleton] at he
                  subst he
                  rw [hpeq]
                  simp only
                  omega
              · have hnotold : p.2 ∉ q.heap.map MPQItem.item := by
                  intro hin
                  rcases List.mem_cons.mp (hItemsPerm.mem_iff.mp hin) with h1 | h1
                  · exact hpm2 h1
                  · exact hnotin (List.mem_append_left _ h1)
                obtain ⟨_, hdome⟩ := hdom p hp hnotold
                intro e he
                rcases List.mem_append.mp he with he | he
                · exact hdome e (hrestSub e he)
                · simp only [List.mem_singleton] at he
                  subst he
                  have := hdome m hmMem
                  simp only
                  omega
            · simp only [List.mem_singleton] at hp
              subst hp
              exact absurd (List.mem_append_right _ (List.mem_singleton_self _)) hnotin
        · simp only [List.map_append, List.map_cons, List.map_nil]
          rw [List.nodup_append]
          refine ⟨hndRest, by simp, ?_⟩
          intro a ha
          simp only [List.mem_cons, List.not_mem_nil, or_false]
          intro hai
          subst hai
          exact hiRest ha
        · intro a ha
          have ha2 := Finset.mem_of_mem_erase ha
          rw [hsnd]
          rcases Finset.mem_insert.mp ha2 with ha3 | ha3
          · simp [ha3]
          · exact List.mem_append_left _ (hsub a ha3)
      · rw [if_neg hlt]
        refine ⟨hcap, ?_, ?_, ?_, ?_, ?_⟩
        · simp only [List.length_append, List.length_singleton]
          omega
        · intro e he
          exact List.mem_append_left _ (hcont e he)
        · intro p hp hnotin
          refine ⟨hlenC, ?_⟩
          rcases List.mem_append.mp hp with hp | hp
          · exact (hdom p hp hnotin).2
          · simp only [List.mem_singleton] at hp
            subst hp
            intro e he
            have := hmin e he
            simp only
            omega
        · exact hnd
        · intro a ha
          simp only at ha
          rw [Finset.erase_insert hiU] at ha
          rw [hsnd]
          exact List.mem_append_left _ (hsub a ha)
  · rw [if_neg hfull]
    have hlenLt : q.heap.length < C := by omega
    refine ⟨hcap, ?_, ?_, ?_, ?_, ?_⟩
    · simp only [heappush, List.length_append, List.length_singleton]
      omega
    · intro e he
      rcases List.mem_append.mp he with he | he
      · exact List.mem_append_left _ (hcont e he)
      · simp only [List.mem_singleton] at he
        subst he
        simp
    · intro p hp hnotin
      simp only [heappush, List.map_append, List.map_cons, List.map_nil] at hnotin
      rcases List.mem_append.mp hp with hp | hp
      · have hnotold : p.2 ∉ q.heap.map MPQItem.item :=
          fun hin => hnotin (List.mem_append_left _ hin)
        obtain ⟨hlc, _⟩ := hdom p hp hnotold
        exact absurd hlc (by omega)
      · simp only [List.mem_singleton] at hp
        subst hp
        exact absurd (List.mem_append_right _ (List.mem_singleton_self _)) hnotin
    · simp only [heappush, List.map_append, List.map_cons, List.map_nil]
      rw [List.nodup_append]
      refine ⟨hnd, by simp, ?_⟩
      intro a ha
      simp only [List.mem_cons, List.not_mem_nil, or_false]
      intro hai
      subst hai
      exact hiHeap ha
    · intro a ha
      simp only at ha
      rw [hsnd]
      rcases Finset.mem_insert.mp ha with ha3 | ha3
      · simp [ha3]
      · exact List.mem_append_left _ (hsub a ha3)

theorem pushFold_inv {α : Type _} [DecidableEq α] (C : Nat)
    (ps : List (Int × α)) (hnd : (ps.map Prod.snd).Nodup) :
    PushInv C ps (pushFold C ps) := by
  induction ps using List.reverseRecOn with
  | nil =>
    refine ⟨rfl, by simp [pushFold, MaxUniquePriorityQueue.empty], ?_, ?_, ?_, ?_⟩
    · intro e he
      simp [pushFold, MaxUniquePriorityQueue.empty] at he
    · intro p hp
      simp at hp
    · simp [pushFold, MaxUniquePriorityQueue.empty]
    · intro a ha
      simp [pushFold, MaxUniquePriorityQueue.empty] at ha
  | append_singleton ps p ih =>
    rw [List.map_append, List.nodup_append] at hnd
    obtain ⟨hnd1, _, hdisj⟩ := hnd
    have hfresh : p.2 ∉ ps.map Prod.snd := by
      intro hin
      exact hdisj hin (by simp)
    have hstep := push_step C (pushFold C ps) ps p.1 p.2 hnd1 (ih hnd1) hfresh
    have heq : pushFold C (ps ++ [p]) = (pushFold C ps).push p.1 p.2 () := by
      simp [pushFold, List.foldl_append]
    rw [heq]
    exact hstep

/-- Claim C7: pushing pairwise-distinct items (each with its one fixed
score) into an empty MaxUniquePriorityQueue of capacity C leaves
exactly min(C, number pushed) stored entries, each a pushed pair, and
every pushed score whose item is absent from the heap is at most every
stored score — i.e. the queue holds the min(C, n) highest-scored pushed
items; and pushing an item already present in the membership set (even
with a different score) leaves the queue completely unchanged. -/
theorem c7_mpq_top_items {α : Type _} [DecidableEq α] (C : Nat)
    (pushes : List (Int × α)) (hnd : (pushes.map Prod.snd).Nodup) :
    (pushFold C pushes).heap.length = min C pushes.length ∧
    (∀ e ∈ (pushFold C pushes).heap, (e.score, e.item) ∈ pushes) ∧
    (∀ p ∈ pushes, p.2 ∉ (pushFold C pushes).heap.map MPQItem.item →
        ∀ e ∈ (pushFold C pushes).heap, p.1 ≤ e.score) ∧
    (∀ (q : MaxUniquePriorityQueue α Unit) (s2 : Int) (i2 : α) (e2 : Unit),
        i2 ∈ q.unique_items → q.push s2 i2 e2 = q) := by
  obtain ⟨_, h2, h3, h4, _, _⟩ := pushFold_inv C pushes hnd
  refine ⟨h2, h3, fun p hp hn => (h4 p hp hn).2, ?_⟩
  intro q s2 i2 e2 hmem
  unfold MaxUniquePriorityQueue.push
  rw [if_pos hmem]

/-- Claim C7 witness. -/
theorem c7_witness :
    ((([(1, 10), (5, 20), (3, 30)] : List (Int × Nat)).map Prod.snd).Nodup) ∧
    (pushFold 2 ([(1, 10), (5, 20), (3, 30)] : List (Int × Nat))).heap.length
      = min 2 ([(1, 10), (5, 20), (3, 30)] : List (Int × Nat)).length := by
  have hnd : (([(1, 10), (5, 20), (3, 30)] : List (Int × Nat)).map Prod.snd).Nodup := by
    decide
  exact ⟨hnd, (c7_mpq_top_items 2 _ hnd).1⟩

/-! ## RouletteWheel (utils.py)

Weights (Python floats) are modelled as rationals; the save file is the
list of the (obj, weight, key) records written to it, in order; the
pickle encoding is not modelled, only the record sequence. -/

/-- Embeds RouletteWheel of utils.py (lines 1754-1973): parallel object,
weight, prefix-sum arrays; the key dict of unique mode (modelled as the
association list of its insertions); whether a save_file was given; and
the append buffer save_to_disk_buffer. -/
structure RouletteWheel (α κ : Type _) where
  unique_mode : Bool
  objects : List α
  weights : List ℚ
  partialSums : List ℚ
  keysToWeights : List (κ × ℚ)
  hasSaveFile : Bool
  saveToDiskBuffer : List (α × ℚ × Option κ)
deriving DecidableEq

/-- total_weight (lines 1821-1826): last partial sum, or 0 when empty. -/
def RouletteWheel.total_weight {α κ : Type _} (rw : RouletteWheel α κ) : ℚ :=
  (rw.partialSums.getLast?).getD 0

/-- The append tail of add (lines 1872-1878), with the already-updated
key map passed in. -/
def addCore {α κ : Type _} (rw : RouletteWheel α κ) (obj : α)
    (weight : ℚ) (key : Option κ) (kw : List (κ × ℚ)) : RouletteWheel α κ :=
  { rw with
      objects := rw.objects ++ [obj],
      weights := rw.weights ++ [weight],
      partialSums := rw.partialSums ++ [rw.total_weight + weight],
      keysToWeights := kw,
      saveToDiskBuffer :=
        if rw.hasSaveFile then rw.saveToDiskBuffer ++ [(obj, weight, key)]
        else rw.saveToDiskBuffer }

/-- Embeds add (lines 1838-1878).  none models a raised ValueError;
some (rw, false) is the duplicate-key rejection of unique mode. -/
def RouletteWheel.add {α κ : Type _} [DecidableEq κ] (rw : RouletteWheel α κ)
    (obj : α) (weight : ℚ) (key : Option κ) :
    Option (RouletteWheel α κ × Bool) :=
  if weight < 0 then none
  else if rw.unique_mode then
    match key with
    | none => none
    | some k =>
      if (rw.keysToWeights.lookup k).isSome then some (rw, false)
      else some (addCore rw obj weight key (rw.keysToWeights ++ [(k, weight)]), true)
  else if key.isSome then none
  else some (addCore rw obj weight key rw.keysToWeights, true)

/-- The empty wheel of the constructor (lines 1786-1793). -/
def emptyRW (α κ : Type _) (um : Bool) (hasSave : Bool) :
    RouletteWheel α κ :=
  ⟨um, [], [], [], [], hasSave, []⟩

/-- Embeds incremental_save (lines 1947-1973): appends the buffer to the
file and clears the buffer; none models the RuntimeError when no
save_file was given. -/
def RouletteWheel.incremental_save {α κ : Type _} (rw : RouletteWheel α κ) (file : List (α × ℚ × Option κ)) :
    Option (RouletteWheel α κ × List (α × ℚ × Option κ)) :=
  if rw.hasSaveFile then
    some ({ rw with saveToDiskBuffer := [] }, file ++ rw.saveToDiskBuffer)
  else none

/-- The load loop of the constructor (lines 1795-1809): add every record
of the file in order (the returned flag is ignored). -/
def loadRecords {α κ : Type _} [DecidableEq κ] :
    RouletteWheel α κ → List (α × ℚ × Option κ) → Option (RouletteWheel α κ)
  | rw, [] => some rw
  | rw, (obj, w, k) :: rest =>
    match rw.add obj w k with
    | none => none
    | some (rw2, _) => loadRecords rw2 rest

/-- Constructing a fresh RouletteWheel with the same save_file: load all
records, then clear the buffer (line 1809). -/
def rouletteLoad {α κ : Type _} [DecidableEq κ] (um : Bool)
    (file : List (α × ℚ × Option κ)) : Option (RouletteWheel α κ) :=
  match loadRecords (emptyRW α κ um true) file with
  | none => none
  | some rw => some { rw with saveToDiskBuffer := [] }

/-- A sequence of add calls that all succeed (no error, every call
returns True, i.e. nothing was rejected as a duplicate). -/
def addSeq {α κ : Type _} [DecidableEq κ] :
    RouletteWheel α κ → List (α × ℚ × Option κ) → Option (RouletteWheel α κ)
  | rw, [] => some rw
  | rw, (obj, w, k) :: rest =>
    match rw.add obj w k with
    | some (rw2, true) => addSeq rw2 rest
    | _ => none

/-- Equality of the sampling-relevant state: mode, objects, weights,
prefix sums and key map (buffer and save-file flag may differ). -/
def CoreEq {α κ : Type _} (a b : RouletteWheel α κ) : Prop :=
  a.unique_mode = b.unique_mode ∧ a.objects = b.objects ∧
  a.weights = b.weights ∧ a.partialSums = b.partialSums ∧
  a.keysToWeights = b.keysToWeights

theorem add_CoreEq {α κ : Type _} [DecidableEq κ]
    (rw1 rw1' : RouletteWheel α κ) (obj : α) (w : ℚ) (k : Option κ)
    (h : CoreEq rw1 rw1') (rw2 : RouletteWheel α κ) (b : Bool)
    (hadd : rw1.add obj w k = some (rw2, b)) :
    ∃ rw2', rw1'.add obj w k = some (rw2', b) ∧ CoreEq rw2 rw2' := by
  obtain ⟨h1, h2, h3, h4, h5⟩ := h
  unfold RouletteWheel.add at hadd ⊢
  by_cases hw : w < 0
  · rw [if_pos hw] at hadd; cases hadd
  · rw [if_neg hw] at hadd ⊢
    by_cases hum : rw1.unique_mode = true
    · rw [if_pos hum] at hadd
      rw [if_pos (h1 ▸ hum)]
      cases k with
      | none => cases hadd
      | some kk =>
        dsimp only at hadd ⊢
        by_cases hk : (rw1.keysToWeights.lookup kk).isSome = true
        · rw [if_pos hk] at hadd
          rw [if_pos (h5 ▸ hk)]
          simp only [Option.some_inj] at hadd
          cases hadd
          exact ⟨rw1', rfl, h1, h2, h3, h4, h5⟩
        · rw [if_neg hk] at hadd
          rw [if_neg (h5 ▸ hk)]
          simp only [Option.some_inj] at hadd
          cases hadd
          refine ⟨_, rfl, ?_⟩
          unfold addCore CoreEq RouletteWheel.total_weight
          simp [h1, h2, h3, h4, h5]
    · rw [if_neg hum] at hadd
      rw [if_neg (h1 ▸ hum)]
      by_cases hks : k.isSome = true
      · rw [if_pos hks] at hadd; cases hadd
      · rw [if_neg hks] at hadd
        rw [if_neg hks]
        simp only [Option.some_inj] at hadd
        cases hadd
        refine ⟨_, rfl, ?_⟩
        unfold addCore CoreEq RouletteWheel.total_weight
        simp [h1, h2, h3, h4, h5]

theorem add_buffer {α κ : Type _} [DecidableEq κ]
    (rw : RouletteWheel α κ) (obj : α) (w : ℚ) (k : Option κ)
    (rw2 : RouletteWheel α κ) (hs : rw.hasSaveFile = true)
    (hadd : rw.add obj w k = some (rw2, true)) :
    rw2.saveToDiskBuffer = rw.saveToDiskBuffer ++ [(obj, w, k)] ∧
    rw2.hasSaveFile = true := by
  unfold RouletteWheel.add at hadd
  by_cases hw : w < 0
  · rw [if_pos hw] at hadd; cases hadd
  · rw [if_neg hw] at hadd
    by_cases hum : rw.unique_mode = true
    · rw [if_pos hum] at hadd
      cases k with
      | none => cases hadd
      | some kk =>
        dsimp only at hadd
        by_cases hk : (rw.keysToWeights.lookup kk).isSome = true
        · rw [if_pos hk] at hadd
          simp at hadd
        · rw [if_neg hk] at hadd
          simp only [Option.some_inj] at hadd
          cases hadd
          unfold addCore
          simp [hs]
    · rw [if_neg hum] at hadd
      by_cases hks : k.isSome = true
      · rw [if_pos hks] at hadd; cases hadd
      · rw [if_neg hks] at hadd
        simp only [Option.some_inj] at hadd
        cases hadd
        unfold addCore
        simp [hs]

theorem addSeq_buffer {α κ : Type _} [DecidableEq κ] :
    ∀ (reqs : List (α × ℚ × Option κ)) (rw0 rw : RouletteWheel α κ),
      rw0.hasSaveFile = true → addSeq rw0 reqs = some rw →
      rw.saveToDiskBuffer = rw0.saveToDiskBuffer ++ reqs ∧
      rw.hasSaveFile = true := by
  intro reqs
  induction reqs with
  | nil =>
    intro rw0 rw hs h
    simp only [addSeq, Option.some_inj] at h
    cases h
    exact ⟨by simp, hs⟩
  | cons r rest ih =>
    intro rw0 rw hs h
    obtain ⟨obj, w, k⟩ := r
    simp only [addSeq] at h
    split at h
    · rename_i rw2 hadd
      obtain ⟨hbuf, hs2⟩ := add_buffer rw0 obj w k rw2 hs hadd
      obtain ⟨hbuf2, hs3⟩ := ih rw2 rw hs2 h
      refine ⟨?_, hs3⟩
      rw [hbuf2, hbuf]
      simp
    · cases h

theorem addSeq_load {α κ : Type _} [DecidableEq κ] :
    ∀ (reqs : List (α × ℚ × Option κ)) (rw1 rw1' rw : RouletteWheel α κ),
      CoreEq rw1 rw1' → addSeq rw1 reqs = some rw →
      ∃ rw', loadRecords rw1' reqs = some rw' ∧ CoreEq rw rw' := by
  intro reqs
  induction reqs with
  | nil =>
    intro rw1 rw1' rw hc h
    simp only [addSeq, Option.some_inj] at h
    cases h
    exact ⟨rw1', rfl, hc⟩
  | cons r rest ih =>
    intro rw1 rw1' rw hc h
    obtain ⟨obj, w, k⟩ := r
    simp only [addSeq] at h
    split at h
    · rename_i rw2 hadd
      obtain ⟨rw2', hadd', hc2⟩ := add_CoreEq rw1 rw1' obj w k hc rw2 true hadd
      obtain ⟨rw', hload, hc3⟩ := ih rw2 rw2' rw hc2 h
      refine ⟨rw', ?_, hc3⟩
      simp only [loadRecords, hadd']
      exact hload
    · cases h

/-- Claim C8: a RouletteWheel populated from empty (with a save file) by
successful add calls, written out in full with incremental_save and
reloaded into a fresh instance, yields identical stored objects,
weights, total weight and (object, weight) iteration order. -/
theorem c8_roulette_roundtrip {α κ : Type _} [DecidableEq κ] (um : Bool)
    (reqs : List (α × ℚ × Option κ)) (rw : RouletteWheel α κ)
    (h : addSeq (emptyRW α κ um true) reqs = some rw) :
    ∃ cleared file rw2,
      rw.incremental_save [] = some (cleared, file) ∧
      rouletteLoad um file = some rw2 ∧
      rw2.objects = rw.objects ∧
      rw2.weights = rw.weights ∧
      rw2.total_weight = rw.total_weight ∧
      rw2.objects.zip rw2.weights = rw.objects.zip rw.weights := by
  obtain ⟨hbuf, hs⟩ := addSeq_buffer reqs (emptyRW α κ um true) rw rfl h
  obtain ⟨rw', hload, hc⟩ := addSeq_load reqs (emptyRW α κ um true)
    (emptyRW α κ um true) rw ⟨rfl, rfl, rfl, rfl, rfl⟩ h
  obtain ⟨_, h2, h3, h4, _⟩ := hc
  refine ⟨{ rw with saveToDiskBuffer := [] }, rw.saveToDiskBuffer,
    { rw' with saveToDiskBuffer := [] }, ?_, ?_, ?_, ?_, ?_, ?_⟩
  · unfold RouletteWheel.incremental_save
    rw [if_pos hs]
    simp
  · unfold rouletteLoad
    rw [hbuf]
    simp only [emptyRW, List.nil_append]
    simp only [emptyRW] at hload
    rw [hload]
  · simp only
    exact h2.symm
  · simp only
    exact h3.symm
  · unfold RouletteWheel.total_weight
    simp only
    rw [h4]
  · simp only
    rw [h2, h3]

/-- Claim C8 witness: two successful non-unique adds. -/
theorem c8_witness :
    ∃ rw : RouletteWheel Nat Nat,
      addSeq (emptyRW Nat Nat false true) [(7, 2, none), (8, 3, none)] = some rw ∧
      ∃ cleared file rw2,
        rw.incremental_save [] = some (cleared, file) ∧
        rouletteLoad false file = some rw2 ∧
        rw2.objects = rw.objects ∧
        rw2.weights = rw.weights ∧
        rw2.total_weight = rw.total_weight ∧
        rw2.objects.zip rw2.weights = rw.objects.zip rw.weights := by
  have h1 : (emptyRW ℕ ℕ false true).add 7 2 none
      = some (⟨false, [7], [2], [2], [], true, [(7, 2, none)]⟩, true) := by
    unfold RouletteWheel.add emptyRW addCore RouletteWheel.total_weight
    norm_num
  have h2 : (⟨false, [7], [2], [2], [], true,
        [(7, 2, none)]⟩ : RouletteWheel ℕ ℕ).add 8 3 none
      = some (⟨false, [7, 8], [2, 3], [2, 5], [], true,
          [(7, 2, none), (8, 3, none)]⟩, true) := by
    unfold RouletteWheel.add addCore RouletteWheel.total_weight
    norm_num
  have hseq : addSeq (emptyRW ℕ ℕ false true) [(7, 2, none), (8, 3, none)]
      = some ⟨false, [7, 8], [2, 3], [2, 5], [], true,
          [(7, 2, none), (8, 3, none)]⟩ := by
    simp only [addSeq, h1, h2]
  exact ⟨_, hseq, c8_roulette_roundtrip false _ _ hseq⟩

end BrainCoder
